import Mathlib

/-
Verification of the Mamdani fuzzy-inference pipeline in src/app.js
(washing-time controller: two inputs "dirt" and "grease", one output "time").

The numeric model uses ℚ for the JavaScript numbers.  Every arithmetic
operation performed by the pipeline on the reference configuration is exact
in binary floating point (the sampling step 60/120 = 0.5 is dyadic and all
accumulated sample values stay far below the precision limit), so the
rational model computes the same values the program does.
-/

set_option maxHeartbeats 1000000
set_option maxRecDepth 100000

namespace Fuzzy

/-- A triangular membership-function shape: the `[a, b, c]` point triples
used throughout `src/app.js` (left foot, peak, right foot). -/
structure Triangle where
  a : ℚ
  b : ℚ
  c : ℚ
deriving DecidableEq

/-- The `triangleMf` function of `src/app.js` (lines 47-52), branch for
branch:
if `x <= a || x >= c` return 0; if `x > a && x <= b` return `(x-a)/(b-a)`;
if `x > b && x < c` return `(c-x)/(c-b)`; otherwise return 0. -/
def triangleMf (x : ℚ) (t : Triangle) : ℚ :=
  if x ≤ t.a ∨ x ≥ t.c then 0
  else if t.a < x ∧ x ≤ t.b then (x - t.a) / (t.b - t.a)
  else if t.b < x ∧ x < t.c then (t.c - x) / (t.c - t.b)
  else 0

/-- Variant of `triangleMf` with the same branch structure that reports
(as `none`) any evaluation in which the branch actually taken would divide
by zero.  `triangleMf` never divides by zero exactly when this function
never returns `none`. -/
def triangleMfChecked (x : ℚ) (t : Triangle) : Option ℚ :=
  if x ≤ t.a ∨ x ≥ t.c then some 0
  else if t.a < x ∧ x ≤ t.b then
    if t.b - t.a = 0 then none else some ((x - t.a) / (t.b - t.a))
  else if t.b < x ∧ x < t.c then
    if t.c - t.b = 0 then none else some ((t.c - x) / (t.c - t.b))
  else some 0

/-- Linguistic terms of the "dirt" input variable (`dirtMf`, lines 12-16). -/
inductive DirtTerm
| SD
| MD
| LD
deriving DecidableEq, Fintype

/-- Linguistic terms of the "grease" input variable (`greaseMf`, lines 18-22). -/
inductive GreaseTerm
| NG
| MG
| LG
deriving DecidableEq, Fintype

/-- Linguistic terms of the "time" output variable (`timeMf`, lines 24-30). -/
inductive TimeTerm
| VS
| S
| M
| L
| VL
deriving DecidableEq, Fintype

/-- The `dirtMf` configuration table of `src/app.js`. -/
def dirtMf : DirtTerm → Triangle
| .SD => ⟨-100, 0, 100⟩
| .MD => ⟨0, 100, 200⟩
| .LD => ⟨100, 200, 300⟩

/-- The `greaseMf` configuration table of `src/app.js`. -/
def greaseMf : GreaseTerm → Triangle
| .NG => ⟨-100, 0, 100⟩
| .MG => ⟨0, 100, 200⟩
| .LG => ⟨100, 200, 300⟩

/-- The `timeMf` configuration table of `src/app.js`. -/
def timeMf : TimeTerm → Triangle
| .VS => ⟨-10, 0, 10⟩
| .S => ⟨0, 10, 25⟩
| .M => ⟨10, 25, 40⟩
| .L => ⟨25, 40, 60⟩
| .VL => ⟨40, 60, 70⟩

/-- The `rules` matrix of `src/app.js` (lines 33-37). -/
def rules : DirtTerm → GreaseTerm → TimeTerm
| .SD, .NG => .VS
| .SD, .MG => .S
| .SD, .LG => .M
| .MD, .NG => .S
| .MD, .MG => .M
| .MD, .LG => .L
| .LD, .NG => .M
| .LD, .MG => .L
| .LD, .LG => .VL

/-- On any `Triangle` with `a ≤ b ≤ c` the membership degree is
non-negative. -/
lemma triangleMf_nonneg (x : ℚ) (t : Triangle) (hab : t.a ≤ t.b)
    (hbc : t.b ≤ t.c) : 0 ≤ triangleMf x t := by
  unfold triangleMf
  split_ifs with h1 h2 h3
  · exact le_refl 0
  · rcases h2 with ⟨hax, hxb⟩
    have hba : 0 < t.b - t.a := by
      rcases lt_or_le t.a t.b with h | h
      · linarith
      · exfalso
        exact absurd (lt_of_lt_of_le hax hxb) (not_lt.mpr h)
    exact div_nonneg (by linarith) (le_of_lt hba)
  · rcases h3 with ⟨hbx, hxc⟩
    have hcb : 0 < t.c - t.b := by linarith
    exact div_nonneg (by linarith) (le_of_lt hcb)
  · exact le_refl 0

/-- On any `Triangle` with `a ≤ b ≤ c` the membership degree is at most 1. -/
lemma triangleMf_le_one (x : ℚ) (t : Triangle) (hab : t.a ≤ t.b)
    (hbc : t.b ≤ t.c) : triangleMf x t ≤ 1 := by
  unfold triangleMf
  split_ifs with h1 h2 h3
  · exact zero_le_one
  · rcases h2 with ⟨hax, hxb⟩
    have hba : 0 < t.b - t.a := by
      rcases lt_or_le t.a t.b with h | h
      · linarith
      · exfalso
        exact absurd (lt_of_lt_of_le hax hxb) (not_lt.mpr h)
    rw [div_le_one hba]
    linarith
  · rcases h3 with ⟨hbx, hxc⟩
    have hcb : 0 < t.c - t.b := by linarith
    rw [div_le_one hcb]
    linarith
  · exact zero_le_one

/-- The zero branch of `triangleMf`: outside `(a, c)` the degree is 0. -/
lemma triangleMf_zero_branch (x : ℚ) (t : Triangle)
    (h : x ≤ t.a ∨ x ≥ t.c) : triangleMf x t = 0 := by
  unfold triangleMf
  rw [if_pos h]

/-- The rising branch of `triangleMf`. -/
lemma triangleMf_rising (x : ℚ) (t : Triangle) (h1 : t.a < x)
    (h2 : x ≤ t.b) (h3 : x < t.c) :
    triangleMf x t = (x - t.a) / (t.b - t.a) := by
  unfold triangleMf
  rw [if_neg (by push_neg; exact ⟨by linarith, by linarith⟩),
    if_pos ⟨h1, h2⟩]

/-- The falling branch of `triangleMf`. -/
lemma triangleMf_falling (x : ℚ) (t : Triangle) (hab : t.a ≤ t.b)
    (h1 : t.b < x) (h2 : x < t.c) :
    triangleMf x t = (t.c - x) / (t.c - t.b) := by
  unfold triangleMf
  rw [if_neg (by push_neg; exact ⟨by linarith, by linarith⟩),
    if_neg (by push_neg; intro _; linarith), if_pos ⟨h1, h2⟩]

/-- C2.  Contract of the triangular membership function, for any Triangle
with `a ≤ b ≤ c`.  The three cases are read in the order in which the code
tests them, so the rising case applies only where the zero case does not;
the two overlap solely at `x = b = c`, where the code's first test wins and
the value is 0. -/
theorem triangleMf_contract (x : ℚ) (t : Triangle) (hab : t.a ≤ t.b)
    (hbc : t.b ≤ t.c) :
    ((x ≤ t.a ∨ x ≥ t.c) → triangleMf x t = 0)
    ∧ (t.a < x → x ≤ t.b → x < t.c →
        triangleMf x t = (x - t.a) / (t.b - t.a))
    ∧ (t.b < x → x < t.c → triangleMf x t = (t.c - x) / (t.c - t.b)) := by
  exact ⟨triangleMf_zero_branch x t,
    fun hax hxb hxc => triangleMf_rising x t hax hxb hxc,
    fun hbx hxc => triangleMf_falling x t hab hbx hxc⟩

/-- C2 witness: evaluation on the rising edge of the Triangle (0, 10, 20). -/
theorem triangleMf_contract_witness :
    triangleMf 5 ⟨0, 10, 20⟩ = (5 - 0) / (10 - 0) :=
  (triangleMf_contract 5 ⟨0, 10, 20⟩ (by norm_num) (by norm_num)).2.1
    (by norm_num) (by norm_num) (by norm_num)

/-- C6.  On degenerate triangles (`a = b` or `b = c`, with `a ≤ b ≤ c`) the
evaluation never reaches a division by zero (the checked variant returns
`some`), signals no error (it is a total function), and the result is
always in [0, 1]. -/
theorem triangleMf_degenerate_total (x : ℚ) (t : Triangle) (hab : t.a ≤ t.b)
    (hbc : t.b ≤ t.c) (hdeg : t.a = t.b ∨ t.b = t.c) :
    triangleMfChecked x t = some (triangleMf x t)
    ∧ 0 ≤ triangleMf x t ∧ triangleMf x t ≤ 1 := by
  refine ⟨?_, triangleMf_nonneg x t hab hbc, triangleMf_le_one x t hab hbc⟩
  unfold triangleMfChecked triangleMf
  split_ifs with h1 h2 h3 h4 h5
  · rfl
  · exfalso
    rcases h2 with ⟨hax, hxb⟩
    have : t.a = t.b := by linarith [sub_eq_zero.mp h3]
    linarith
  · rfl
  · exfalso
    rcases h4 with ⟨hbx, hxc⟩
    have : t.b = t.c := by linarith [sub_eq_zero.mp h5]
    linarith
  · rfl
  · rfl

/-- C6 witness: the degenerate Triangle (0, 0, 10) evaluated at 5. -/
theorem triangleMf_degenerate_total_witness :
    triangleMfChecked 5 ⟨0, 0, 10⟩ = some (triangleMf 5 ⟨0, 0, 10⟩)
    ∧ 0 ≤ triangleMf 5 ⟨0, 0, 10⟩ ∧ triangleMf 5 ⟨0, 0, 10⟩ ≤ 1 :=
  triangleMf_degenerate_total 5 ⟨0, 0, 10⟩ (by norm_num) (by norm_num)
    (Or.inl rfl)

/-- C10.  At the peak `x = b` of a degenerate Triangle the code returns 0,
not 1: when `a = b` the `x ≤ a` branch applies, when `b = c` the `x ≥ c`
branch applies.  The value 1 at the peak is obtained exactly on
non-degenerate triangles (`a < b < c`). -/
theorem triangleMf_degenerate_peak (t : Triangle) (hab : t.a ≤ t.b)
    (hbc : t.b ≤ t.c) :
    (t.a = t.b → triangleMf t.b t = 0)
    ∧ (t.b = t.c → triangleMf t.b t = 0)
    ∧ (t.a < t.b → t.b < t.c → triangleMf t.b t = 1) := by
  refine ⟨?_, ?_, ?_⟩
  · intro h
    unfold triangleMf
    rw [if_pos (Or.inl (le_of_eq h.symm))]
  · intro h
    unfold triangleMf
    rw [if_pos (Or.inr (le_of_eq h.symm))]
  · intro h1 h2
    unfold triangleMf
    rw [if_neg (by push_neg; exact ⟨h1, h2⟩), if_pos ⟨h1, le_refl _⟩,
      div_self (by intro h; apply absurd (sub_eq_zero.mp h); linarith)]

/-- C10 witness: the Triangle (0, 0, 10) with vertical left edge gives
membership 0, not 1, at its peak 0. -/
theorem triangleMf_degenerate_peak_witness :
    triangleMf (0 : ℚ) ⟨0, 0, 10⟩ = 0 :=
  (triangleMf_degenerate_peak ⟨0, 0, 10⟩ (by norm_num) (by norm_num)).1 rfl

/-- Fuzzification of the dirt input (`dirtDegrees`, lines 159-163). -/
def dirtDegrees (d : ℚ) : DirtTerm → ℚ := fun s => triangleMf d (dirtMf s)

/-- Fuzzification of the grease input (`greaseDegrees`, lines 164-168). -/
def greaseDegrees (g : ℚ) : GreaseTerm → ℚ :=
  fun s => triangleMf g (greaseMf s)

/-- The (dirt term, grease term) pairs in the order the nested `for..in`
loops of lines 173-174 visit them (JavaScript objects preserve the
insertion order of their string keys). -/
def rulePairs : List (DirtTerm × GreaseTerm) :=
  [(.SD, .NG), (.SD, .MG), (.SD, .LG),
   (.MD, .NG), (.MD, .MG), (.MD, .LG),
   (.LD, .NG), (.LD, .MG), (.LD, .LG)]

/-- One iteration of the rule-evaluation loop body (lines 175-179): compute
the rule's strength as the minimum of the two antecedent degrees and record
it on the rule's output term if it exceeds the value stored there. -/
def ruleStep (dd : DirtTerm → ℚ) (gd : GreaseTerm → ℚ)
    (act : TimeTerm → ℚ) (p : DirtTerm × GreaseTerm) : TimeTerm → ℚ :=
  let out := rules p.1 p.2
  let strength := min (dd p.1) (gd p.2)
  if strength > act out then Function.update act out strength else act

/-- The `outputActivation` mapping of lines 172-181: start from all-zero
activations and run the rule loop over every antecedent pair. -/
def outputActivation (dd : DirtTerm → ℚ) (gd : GreaseTerm → ℚ) :
    TimeTerm → ℚ :=
  rulePairs.foldl (ruleStep dd gd) fun _ => 0

/-- The output terms in the order the `for..in` loop of line 188 visits the
`outputActivation` object's keys. -/
def timeTerms : List TimeTerm := [.VS, .S, .M, .L, .VL]

/-- The inner loop of the aggregation stage (lines 187-195): the degree at
sample point `t` is the running maximum, over the output terms, of the
term's membership degree at `t` clipped at its activation level. -/
def aggDegree (act : TimeTerm → ℚ) (t : ℚ) : ℚ :=
  timeTerms.foldl
    (fun m s =>
      let deg := min (act s) (triangleMf t (timeMf s))
      if deg > m then deg else m)
    0

/-- The sample points of the aggregation loop of line 186
(`for (let t = 0; t <= 60; t += 60 / samples)` with `samples = 120`): the
step 1/2 is exactly representable, so the loop produces exactly the values
`i * (60 / 120)` for `i = 0, ..., 120`. -/
def tGrid : List ℚ := (List.range 121).map fun i : ℕ => (i : ℚ) * (60 / 120)

/-- The `aggregatedPoints` array of lines 184-197: one `(t, degree)` pair
per sample point. -/
def aggregatedPoints (act : TimeTerm → ℚ) : List (ℚ × ℚ) :=
  tGrid.map fun t => (t, aggDegree act t)

/-- The `numerator` accumulation of lines 200-205: `sum(t * mu(t))`. -/
def numerator (pts : List (ℚ × ℚ)) : ℚ :=
  pts.foldl (fun s p => s + p.1 * p.2) 0

/-- The `denominator` accumulation of lines 200-205: `sum(mu(t))`. -/
def denominator (pts : List (ℚ × ℚ)) : ℚ :=
  pts.foldl (fun s p => s + p.2) 0

/-- The aggregated surface computed by one run of `update` for crisp
inputs `d` (dirt) and `g` (grease). -/
def inferSurface (d g : ℚ) : List (ℚ × ℚ) :=
  aggregatedPoints (outputActivation (dirtDegrees d) (greaseDegrees g))

/-- The crisp output `cog` of line 207: the centre of gravity of the
aggregated surface, or the fallback 30 when the denominator is zero. -/
def infer (d g : ℚ) : ℚ :=
  if denominator (inferSurface d g) = 0 then 30
  else numerator (inferSurface d g) / denominator (inferSurface d g)

/-- A conditional update against a running maximum is the binary maximum. -/
lemma ite_gt_eq_max (m d : ℚ) : (if d > m then d else m) = max m d := by
  rcases le_total d m with h | h
  · rw [if_neg (not_lt.mpr h), max_eq_left h]
  · rcases eq_or_lt_of_le h with h | h
    · rw [h, max_self, if_neg (lt_irrefl d)]
    · rw [if_pos h, max_eq_right (le_of_lt h)]

/-- Unfolding lemma: what one pass of `ruleStep` does to the activation
recorded for a fixed output term `s`. -/
lemma ruleStep_apply (dd : DirtTerm → ℚ) (gd : GreaseTerm → ℚ)
    (act : TimeTerm → ℚ) (p : DirtTerm × GreaseTerm) (s : TimeTerm) :
    ruleStep dd gd act p s =
      if rules p.1 p.2 = s then max (act s) (min (dd p.1) (gd p.2))
      else act s := by
  unfold ruleStep
  by_cases hps : rules p.1 p.2 = s
  · subst hps
    rw [if_pos rfl, ← ite_gt_eq_max]
    by_cases hgt : min (dd p.1) (gd p.2) > act (rules p.1 p.2)
    · rw [if_pos hgt, if_pos hgt, Function.update_same]
    · rw [if_neg hgt, if_neg hgt]
  · rw [if_neg hps]
    by_cases hgt : min (dd p.1) (gd p.2) > act (rules p.1 p.2)
    · rw [if_pos hgt, Function.update_noteq (Ne.symm hps)]
    · rw [if_neg hgt]

/-- The rule-evaluation fold, projected at one output term, is the running
maximum of the strengths of the rules whose consequent is that term. -/
lemma foldl_ruleStep_apply (dd : DirtTerm → ℚ) (gd : GreaseTerm → ℚ)
    (l : List (DirtTerm × GreaseTerm)) (act : TimeTerm → ℚ) (s : TimeTerm) :
    l.foldl (ruleStep dd gd) act s =
      (l.filter fun p => rules p.1 p.2 = s).foldl
        (fun m p => max m (min (dd p.1) (gd p.2))) (act s) := by
  induction l generalizing act with
  | nil => rfl
  | cons p l ih =>
    rw [List.foldl_cons, ih, List.filter_cons]
    by_cases hps : rules p.1 p.2 = s
    · rw [if_pos (by simpa using hps), List.foldl_cons]
      congr 1
      rw [ruleStep_apply, if_pos hps]
    · rw [if_neg (by simpa using hps)]
      congr 1
      rw [ruleStep_apply, if_neg hps]

/-- A left fold of `max` never drops below its initial value. -/
lemma le_foldl_max (l : List ℚ) (a : ℚ) : a ≤ l.foldl max a := by
  induction l generalizing a with
  | nil => exact le_refl a
  | cons x l ih => exact le_trans (le_max_left a x) (ih (max a x))

/-- A left fold of `max` stays below any bound dominating the initial value
and every element. -/
lemma foldl_max_le (l : List ℚ) (a u : ℚ) (ha : a ≤ u)
    (hl : ∀ x ∈ l, x ≤ u) : l.foldl max a ≤ u := by
  induction l generalizing a with
  | nil => exact ha
  | cons x l ih =>
    exact ih (max a x) (max_le ha (hl x (List.mem_cons_self x l)))
      fun y hy => hl y (List.mem_cons_of_mem x hy)

/-- C3.  Rule evaluation: for any pair of Degree Mappings with values in
[0, 1], the Activation Mapping (one entry per output term, here a total
function on `TimeTerm`) assigns to each output term the maximum, over the
rules whose consequent is that term, of the minimum of the rule's two
antecedent degrees (a fold of `max` seeded with 0, hence 0 when no rule
matches), and every activation lies in [0, 1]. -/
theorem rule_evaluation_correct (dd : DirtTerm → ℚ) (gd : GreaseTerm → ℚ)
    (hdd : ∀ s, 0 ≤ dd s ∧ dd s ≤ 1) (hgd : ∀ s, 0 ≤ gd s ∧ gd s ≤ 1)
    (s : TimeTerm) :
    outputActivation dd gd s =
      ((rulePairs.filter fun p => rules p.1 p.2 = s).map
        fun p => min (dd p.1) (gd p.2)).foldl max 0
    ∧ 0 ≤ outputActivation dd gd s ∧ outputActivation dd gd s ≤ 1 := by
  have hmem : ∀ x ∈ (rulePairs.filter fun p => rules p.1 p.2 = s).map
      fun p => min (dd p.1) (gd p.2), 0 ≤ x ∧ x ≤ 1 := by
    intro x hx
    rcases List.mem_map.mp hx with ⟨p, _, rfl⟩
    exact ⟨le_min (hdd p.1).1 (hgd p.2).1,
      le_trans (min_le_left _ _) (hdd p.1).2⟩
  have heq : outputActivation dd gd s =
      ((rulePairs.filter fun p => rules p.1 p.2 = s).map
        fun p => min (dd p.1) (gd p.2)).foldl max 0 := by
    unfold outputActivation
    rw [foldl_ruleStep_apply, List.foldl_map]
  refine ⟨heq, ?_, ?_⟩
  · rw [heq]
    exact le_foldl_max _ 0
  · rw [heq]
    exact foldl_max_le _ 0 1 zero_le_one fun x hx => (hmem x hx).2

/-- C3 witness: both degree mappings constantly 1/2. -/
theorem rule_evaluation_correct_witness :
    outputActivation (fun _ => (1 : ℚ)/2) (fun _ => (1 : ℚ)/2) .M =
      ((rulePairs.filter fun p => rules p.1 p.2 = .M).map
        fun _ => min ((1 : ℚ)/2) ((1 : ℚ)/2)).foldl max 0
    ∧ 0 ≤ outputActivation (fun _ => (1 : ℚ)/2) (fun _ => (1 : ℚ)/2) .M
    ∧ outputActivation (fun _ => (1 : ℚ)/2) (fun _ => (1 : ℚ)/2) .M ≤ 1 :=
  rule_evaluation_correct (fun _ => (1 : ℚ)/2) (fun _ => (1 : ℚ)/2)
    (fun _ => by norm_num) (fun _ => by norm_num) .M

/-- The triangles of the output variable are sorted (`a ≤ b ≤ c`). -/
lemma timeMf_sorted (s : TimeTerm) :
    (timeMf s).a ≤ (timeMf s).b ∧ (timeMf s).b ≤ (timeMf s).c := by
  cases s <;> exact ⟨by norm_num [timeMf], by norm_num [timeMf]⟩

/-- The aggregation loop body, rewritten: the running-maximum update is a
fold of the binary maximum over the clipped contributions. -/
lemma aggDegree_eq_foldl_max (act : TimeTerm → ℚ) (t : ℚ) :
    aggDegree act t =
      (timeTerms.map fun s => min (act s) (triangleMf t (timeMf s))).foldl
        max 0 := by
  unfold aggDegree
  rw [List.foldl_map]
  congr 1
  funext m s
  exact ite_gt_eq_max m (min (act s) (triangleMf t (timeMf s)))

/-- C4.  Aggregation, per sample point: for any Activation Mapping with
values in [0, 1], the aggregated degree at `t` is the maximum over the five
output terms of the term's membership degree at `t` clipped at the term's
activation, and it lies in [0, 1]. -/
theorem aggregation_pointwise (act : TimeTerm → ℚ)
    (hact : ∀ s, 0 ≤ act s ∧ act s ≤ 1) (t : ℚ) :
    aggDegree act t =
      max (min (act .VS) (triangleMf t (timeMf .VS)))
        (max (min (act .S) (triangleMf t (timeMf .S)))
          (max (min (act .M) (triangleMf t (timeMf .M)))
            (max (min (act .L) (triangleMf t (timeMf .L)))
              (min (act .VL) (triangleMf t (timeMf .VL))))))
    ∧ 0 ≤ aggDegree act t ∧ aggDegree act t ≤ 1 := by
  have hc : ∀ s, 0 ≤ min (act s) (triangleMf t (timeMf s))
      ∧ min (act s) (triangleMf t (timeMf s)) ≤ 1 := fun s =>
    ⟨le_min (hact s).1
      (triangleMf_nonneg t (timeMf s) (timeMf_sorted s).1 (timeMf_sorted s).2),
      le_trans (min_le_left _ _) (hact s).2⟩
  refine ⟨?_, ?_, ?_⟩
  · rw [aggDegree_eq_foldl_max]
    show max (max (max (max (max 0 _) _) _) _) _ = _
    rw [max_eq_right (hc .VS).1, max_assoc, max_assoc, max_assoc]
  · rw [aggDegree_eq_foldl_max]
    exact le_foldl_max _ 0
  · rw [aggDegree_eq_foldl_max]
    refine foldl_max_le _ 0 1 zero_le_one fun x hx => ?_
    rcases List.mem_map.mp hx with ⟨s, _, rfl⟩
    exact (hc s).2

/-- C4 witness: constant activation 1/2 at sample point 20. -/
theorem aggregation_pointwise_witness :
    aggDegree (fun _ => (1 : ℚ)/2) 20 =
      max (min ((1 : ℚ)/2) (triangleMf 20 (timeMf .VS)))
        (max (min ((1 : ℚ)/2) (triangleMf 20 (timeMf .S)))
          (max (min ((1 : ℚ)/2) (triangleMf 20 (timeMf .M)))
            (max (min ((1 : ℚ)/2) (triangleMf 20 (timeMf .L)))
              (min ((1 : ℚ)/2) (triangleMf 20 (timeMf .VL))))))
    ∧ 0 ≤ aggDegree (fun _ => (1 : ℚ)/2) 20
    ∧ aggDegree (fun _ => (1 : ℚ)/2) 20 ≤ 1 :=
  aggregation_pointwise (fun _ => (1 : ℚ)/2) (fun _ => by norm_num) 20

/-- Every sample point of the grid lies in the output domain [0, 60]. -/
lemma tGrid_mem_bounds (t : ℚ) (ht : t ∈ tGrid) : 0 ≤ t ∧ t ≤ 60 := by
  rcases List.mem_map.mp ht with ⟨i, hi, rfl⟩
  have hi121 : (i : ℚ) ≤ 120 := by
    exact_mod_cast Nat.lt_succ_iff.mp (List.mem_range.mp hi)
  constructor
  · positivity
  · nlinarith

/-- C5.  Sampling of the aggregated surface: for every invocation it holds
exactly 121 = N+1 sample points, the i-th at domain value i·(1/2) (step
(60-0)/120 = 1/2, so evenly spaced), the first at 0, the last at 60, and
the domain values are strictly increasing. -/
theorem surface_sampling (act : TimeTerm → ℚ) :
    ((aggregatedPoints act).map Prod.fst).length = 121
    ∧ (∀ i, i < 121 →
        ((aggregatedPoints act).map Prod.fst).getD i 0 = (i : ℚ) * (1/2))
    ∧ ((aggregatedPoints act).map Prod.fst).head? = some 0
    ∧ ((aggregatedPoints act).map Prod.fst).getLast? = some 60
    ∧ ((aggregatedPoints act).map Prod.fst).Pairwise fun u v => u < v := by
  have hfst : (aggregatedPoints act).map Prod.fst = tGrid := by
    rw [aggregatedPoints, List.map_map,
      show (Prod.fst ∘ fun t => (t, aggDegree act t)) = id from rfl,
      List.map_id]
  rw [hfst]
  refine ⟨by simp [tGrid], ?_, ?_, ?_, ?_⟩
  · intro i hi
    rw [tGrid, List.getD_eq_getElem?_getD, List.getElem?_map,
      List.getElem?_range hi]
    norm_num
  · with_unfolding_all rfl
  · with_unfolding_all rfl
  · rw [tGrid, List.pairwise_map]
    refine List.Pairwise.imp ?_ (List.pairwise_lt_range 121)
    intro a b hab
    have hab' : (a : ℚ) < b := by exact_mod_cast hab
    have : (0 : ℚ) < 60 / 120 := by norm_num
    exact mul_lt_mul_of_pos_right hab' this

/-- C5 witness: the all-zero activation, eighth sample point. -/
theorem surface_sampling_witness :
    ((aggregatedPoints fun _ => 0).map Prod.fst).getD 7 0 = (7 : ℚ) * (1/2) :=
  (surface_sampling fun _ => 0).2.1 7 (by norm_num)

/-- Accumulating `s + p.2` over a list is adding the sum of the second
components. -/
lemma foldl_add_snd (pts : List (ℚ × ℚ)) (a : ℚ) :
    pts.foldl (fun s p => s + p.2) a = a + (pts.map Prod.snd).sum := by
  induction pts generalizing a with
  | nil => simp
  | cons p l ih => simp [ih, add_assoc]

/-- Accumulating `s + p.1 * p.2` over a list is adding the sum of the
products. -/
lemma foldl_add_mul (pts : List (ℚ × ℚ)) (a : ℚ) :
    pts.foldl (fun s p => s + p.1 * p.2) a =
      a + (pts.map fun p => p.1 * p.2).sum := by
  induction pts generalizing a with
  | nil => simp
  | cons p l ih => simp [ih, add_assoc]

/-- The denominator accumulation is the sum of the membership degrees. -/
lemma denominator_eq_sum (pts : List (ℚ × ℚ)) :
    denominator pts = (pts.map Prod.snd).sum := by
  unfold denominator
  rw [foldl_add_snd, zero_add]

/-- The numerator accumulation is the sum of the moments. -/
lemma numerator_eq_sum (pts : List (ℚ × ℚ)) :
    numerator pts = (pts.map fun p => p.1 * p.2).sum := by
  unfold numerator
  rw [foldl_add_mul, zero_add]

/-- The aggregated degree is never negative, whatever the activations. -/
lemma aggDegree_nonneg (act : TimeTerm → ℚ) (t : ℚ) :
    0 ≤ aggDegree act t := by
  rw [aggDegree_eq_foldl_max]
  exact le_foldl_max _ 0

/-- When both degree mappings are all-zero, every rule's activation is 0. -/
lemma outputActivation_all_zero (dd : DirtTerm → ℚ) (gd : GreaseTerm → ℚ)
    (h1 : ∀ s, dd s = 0) (h2 : ∀ s, gd s = 0) (s : TimeTerm) :
    outputActivation dd gd s = 0 := by
  unfold outputActivation
  rw [foldl_ruleStep_apply, ← List.foldl_map]
  refine le_antisymm (foldl_max_le _ 0 0 le_rfl fun x hx => ?_)
    (le_foldl_max _ 0)
  rcases List.mem_map.mp hx with ⟨p, _, rfl⟩
  simp [h1, h2]

/-- When every activation is 0, the aggregated surface is identically 0. -/
lemma aggDegree_act_zero (act : TimeTerm → ℚ) (h : ∀ s, act s = 0)
    (t : ℚ) : aggDegree act t = 0 := by
  rw [aggDegree_eq_foldl_max]
  refine le_antisymm (foldl_max_le _ 0 0 le_rfl fun x hx => ?_)
    (le_foldl_max _ 0)
  rcases List.mem_map.mp hx with ⟨s, _, rfl⟩
  rw [h s]
  exact min_le_left 0 _

/-- C1.  Defuzzification: the crisp output is numerator/denominator when
the denominator (the sum of the aggregated degrees) is nonzero, and the
fallback 30 when it is zero — in particular whenever both inputs fuzzify
to all-zero degree mappings.  `infer` is a total function on ℚ × ℚ, so no
error and no NaN can be produced. -/
theorem defuzzification_fallback (d g : ℚ) :
    (denominator (inferSurface d g) ≠ 0 →
      infer d g =
        numerator (inferSurface d g) / denominator (inferSurface d g))
    ∧ (denominator (inferSurface d g) = 0 → infer d g = 30)
    ∧ ((∀ s, dirtDegrees d s = 0) → (∀ s, greaseDegrees g s = 0) →
        infer d g = 30) := by
  refine ⟨fun h => ?_, fun h => ?_, fun h1 h2 => ?_⟩
  · rw [infer, if_neg h]
  · rw [infer, if_pos h]
  · have hact := outputActivation_all_zero (dirtDegrees d) (greaseDegrees g)
      h1 h2
    have hden : denominator (inferSurface d g) = 0 := by
      rw [denominator_eq_sum]
      refine List.sum_eq_zero fun x hx => ?_
      rcases List.mem_map.mp hx with ⟨p, hp, rfl⟩
      simp only [inferSurface, aggregatedPoints, List.mem_map] at hp
      rcases hp with ⟨t, _, rfl⟩
      exact aggDegree_act_zero _ hact t
    rw [infer, if_pos hden]

/-- C1 witness: inputs far outside every membership support. -/
theorem defuzzification_fallback_witness : infer 1000 1000 = 30 :=
  (defuzzification_fallback 1000 1000).2.2
    (fun s => by cases s <;> with_unfolding_all rfl)
    (fun s => by cases s <;> with_unfolding_all rfl)

/-- C8.  The crisp output always lies in the output domain [0, 60]: the
centroid is a weighted average of sample values in [0, 60] with
non-negative weights, and the fallback 30 is inside [0, 60] as well. -/
theorem output_in_domain (d g : ℚ) : 0 ≤ infer d g ∧ infer d g ≤ 60 := by
  have hmem : ∀ p ∈ inferSurface d g, 0 ≤ p.2 ∧ 0 ≤ p.1 ∧ p.1 ≤ 60 := by
    intro p hp
    simp only [inferSurface, aggregatedPoints, List.mem_map] at hp
    rcases hp with ⟨t, ht, rfl⟩
    exact ⟨aggDegree_nonneg _ t, (tGrid_mem_bounds t ht).1,
      (tGrid_mem_bounds t ht).2⟩
  have hden0 : 0 ≤ denominator (inferSurface d g) := by
    rw [denominator_eq_sum]
    refine List.sum_nonneg fun x hx => ?_
    rcases List.mem_map.mp hx with ⟨p, hp, rfl⟩
    exact (hmem p hp).1
  have hnum0 : 0 ≤ numerator (inferSurface d g) := by
    rw [numerator_eq_sum]
    refine List.sum_nonneg fun x hx => ?_
    rcases List.mem_map.mp hx with ⟨p, hp, rfl⟩
    exact mul_nonneg (hmem p hp).2.1 (hmem p hp).1
  have hnumle : numerator (inferSurface d g) ≤
      60 * denominator (inferSurface d g) := by
    rw [numerator_eq_sum, denominator_eq_sum, ← List.sum_map_mul_left]
    refine List.sum_le_sum fun p hp => ?_
    exact mul_le_mul_of_nonneg_right (hmem p hp).2.2 (hmem p hp).1
  rw [infer]
  split_ifs with h
  · norm_num
  · have hden : 0 < denominator (inferSurface d g) :=
      lt_of_le_of_ne hden0 (Ne.symm h)
    refine ⟨div_nonneg hnum0 hden0, ?_⟩
    rw [div_le_iff₀ hden]
    linarith

/-- C7.  End-to-end scenario at inputs (0, 0): only the Very Short output
term fires, at full strength 1, and the crisp output is exactly 19/6 —
the discrete centroid of the Very Short triangle clipped at level 1 —
which lies inside the support [-10, 10] of that triangle, near its peak 0. -/
theorem end_to_end_zero_inputs :
    outputActivation (dirtDegrees 0) (greaseDegrees 0) .VS = 1
    ∧ outputActivation (dirtDegrees 0) (greaseDegrees 0) .S = 0
    ∧ outputActivation (dirtDegrees 0) (greaseDegrees 0) .M = 0
    ∧ outputActivation (dirtDegrees 0) (greaseDegrees 0) .L = 0
    ∧ outputActivation (dirtDegrees 0) (greaseDegrees 0) .VL = 0
    ∧ infer 0 0 = 19/6
    ∧ (timeMf .VS).a ≤ infer 0 0 ∧ infer 0 0 ≤ (timeMf .VS).c := by
  have hinf : infer 0 0 = 19/6 := by with_unfolding_all rfl
  refine ⟨by with_unfolding_all rfl, by with_unfolding_all rfl,
    by with_unfolding_all rfl, by with_unfolding_all rfl,
    by with_unfolding_all rfl, hinf, ?_, ?_⟩
  · rw [hinf]
    norm_num [timeMf]
  · rw [hinf]
    norm_num [timeMf]

/-- The three input triangles (-100, 0, 100), (0, 100, 200), (100, 200, 300)
form a partition of unity on the input domain [0, 200]. -/
lemma tri_partition (x : ℚ) (h0 : 0 ≤ x) (h200 : x ≤ 200) :
    triangleMf x ⟨-100, 0, 100⟩ + triangleMf x ⟨0, 100, 200⟩ +
      triangleMf x ⟨100, 200, 300⟩ = 1 := by
  rcases eq_or_lt_of_le h0 with h00 | h00
  · rw [← h00]
    with_unfolding_all rfl
  · rcases lt_trichotomy x 100 with h1 | h1 | h1
    · rw [triangleMf_falling x ⟨-100, 0, 100⟩ (by norm_num) h00 h1,
        triangleMf_rising x ⟨0, 100, 200⟩ h00 (le_of_lt h1)
          (by show x < (200 : ℚ); linarith),
        triangleMf_zero_branch x ⟨100, 200, 300⟩ (Or.inl (le_of_lt h1))]
      show (100 - x) / (100 - 0) + (x - 0) / (100 - 0) + 0 = 1
      field_simp
    · rw [triangleMf_zero_branch x ⟨-100, 0, 100⟩ (Or.inr (le_of_eq h1.symm)),
        triangleMf_rising x ⟨0, 100, 200⟩ (by show (0 : ℚ) < x; linarith)
          (le_of_eq h1) (by show x < (200 : ℚ); linarith),
        triangleMf_zero_branch x ⟨100, 200, 300⟩ (Or.inl (le_of_eq h1))]
      rw [h1]
      norm_num
    · rcases eq_or_lt_of_le h200 with h2 | h2
      · rw [h2]
        with_unfolding_all rfl
      · rw [triangleMf_zero_branch x ⟨-100, 0, 100⟩
            (Or.inr (by show (100 : ℚ) ≤ x; linarith)),
          triangleMf_falling x ⟨0, 100, 200⟩ (by norm_num) h1 h2,
          triangleMf_rising x ⟨100, 200, 300⟩ h1
            (by show x ≤ (200 : ℚ); linarith)
            (by show x < (300 : ℚ); linarith)]
        show 0 + (200 - x) / (200 - 100) + (x - 100) / (200 - 100) = 1
        field_simp

/-- C9.  Partition of unity: on the declared input domain [0, 200] the
three membership degrees of the dirt variable sum to exactly 1, and so do
the three of the grease variable. -/
theorem partition_of_unity (x : ℚ) (h0 : 0 ≤ x) (h200 : x ≤ 200) :
    triangleMf x (dirtMf .SD) + triangleMf x (dirtMf .MD) +
      triangleMf x (dirtMf .LD) = 1
    ∧ triangleMf x (greaseMf .NG) + triangleMf x (greaseMf .MG) +
      triangleMf x (greaseMf .LG) = 1 :=
  ⟨tri_partition x h0 h200, tri_partition x h0 h200⟩

/-- C9 witness: both variables at crisp value 50. -/
theorem partition_of_unity_witness :
    triangleMf 50 (dirtMf .SD) + triangleMf 50 (dirtMf .MD) +
      triangleMf 50 (dirtMf .LD) = 1
    ∧ triangleMf 50 (greaseMf .NG) + triangleMf 50 (greaseMf .MG) +
      triangleMf 50 (greaseMf .LG) = 1 :=
  partition_of_unity 50 (by norm_num) (by norm_num)

end Fuzzy
